import Mathlib

/-!
Verification of the SilkyArcTool archive codec (`src/lib.rs`) against its
natural-language specification.

The Rust code is shallowly embedded: bytes are `Nat` values kept below 256
(with explicit `% 256` / `% 2 ^ 32` wherever the source performs `u8`/`u32`
casts or wrapping arithmetic), fallible operations return `Except ArcError`,
and the two external black-box codecs declared out of scope by the spec —
the legacy double-byte text codec (`encoding_rs::SHIFT_JIS`) and the LZSS
codec (`lzss` crate) — are passed in as explicit function parameters,
specified only by the interface laws the spec gives for them.
-/

namespace Silky

/-- Error type, from `src/error.rs` (`ArcError`).  Only the variants reachable
from the embedded code paths carry payloads we track. -/
inductive ArcError where
  | Io : String → ArcError
  | NotFound : ArcError
  | InvalidFormat : String → ArcError
  | NameDecodeError : List Nat → ArcError
  | NameEncodeError : String → ArcError
  | LzssCompressError : String → ArcError
  | LzssDecompressError : String → ArcError
deriving DecidableEq, Repr

/-- `u8` wrapping addition: Rust `b.wrapping_add(a)` where both operands are
`u8` values.  The `% 256` on `b` is the identity on genuine byte values. -/
def add8 (b a : Nat) : Nat := (b % 256 + a % 256) % 256

/-- `u8` wrapping subtraction: Rust `b.wrapping_sub(a)`. -/
def sub8 (b a : Nat) : Nat := (b % 256 + (256 - a % 256)) % 256

/-- Little-endian serialization of a `u32` value (`byteorder::LittleEndian`,
used for the archive header). -/
def le32 (n : Nat) : List Nat :=
  [n % 256, n / 256 % 256, n / 65536 % 256, n / 16777216 % 256]

/-- Big-endian serialization of a `u32` value (`byteorder::BigEndian`, used
for all metadata entry fields). -/
def be32 (n : Nat) : List Nat :=
  [n / 16777216 % 256, n / 65536 % 256, n / 256 % 256, n % 256]

/-- Little-endian `u32` read of a 4-byte list. -/
def le32v (l : List Nat) : Nat :=
  match l with
  | [a, b, c, d] => a % 256 + 256 * (b % 256) + 65536 * (c % 256) + 16777216 * (d % 256)
  | _ => 0

/-- Big-endian `u32` read of a 4-byte list. -/
def be32v (l : List Nat) : Nat :=
  match l with
  | [a, b, c, d] => 16777216 * (a % 256) + 65536 * (b % 256) + 256 * (c % 256) + d % 256
  | _ => 0

/-- The positional byte cipher applied by `encrypt_name` after charset
encoding (`src/lib.rs` lines 84-89): iterate over the encoded bytes in
reverse with a 0-based counter `k`, push `byte.wrapping_sub(k + 1)`, then
reverse the result back into the original order. -/
def shiftDown (bs : List Nat) : List Nat :=
  ((bs.reverse.enum.map fun p => sub8 p.2 (p.1 + 1))).reverse

/-- The inverse positional transform applied by `decrypt_name` before
charset decoding (`src/lib.rs` lines 63-68). -/
def shiftUp (bs : List Nat) : List Nat :=
  ((bs.reverse.enum.map fun p => add8 p.2 (p.1 + 1))).reverse

/-- `decrypt_name` (`src/lib.rs` lines 62-75), with the SHIFT_JIS decoder
abstracted as `dec` (`None` models `had_errors = true`). -/
def decrypt_name (dec : List Nat → Option String) (encrypted : List Nat) :
    Except ArcError String :=
  match dec (shiftUp encrypted) with
  | none => .error (.NameDecodeError encrypted)
  | some s => .ok s

/-- `encrypt_name` (`src/lib.rs` lines 78-91), with the SHIFT_JIS encoder
abstracted as `enc` (`None` models `had_errors = true`). -/
def encrypt_name (enc : String → Option (List Nat)) (name : String) :
    Except ArcError (List Nat) :=
  match enc name with
  | none => .error (.NameEncodeError name)
  | some bs => .ok (shiftDown bs)

theorem shiftDown_length (bs : List Nat) : (shiftDown bs).length = bs.length := by
  simp [shiftDown]

theorem shiftUp_length (bs : List Nat) : (shiftUp bs).length = bs.length := by
  simp [shiftUp]

/-- `sub8 b k` is exactly the spec's "`byte - k (mod 256)`" on genuine bytes. -/
theorem sub8_eq_int_mod (b k : Nat) (hb : b < 256) :
    sub8 b k = (((b : Int) - (k : Int)) % 256).toNat := by
  unfold sub8; omega

theorem add8_sub8 (b k : Nat) (hb : b < 256) : add8 (sub8 b k) k = b := by
  unfold add8 sub8; omega

/-- The `reverse / enumerate / map / reverse` pattern used by both name-cipher
directions is a positional map: the element at 0-based index `i` is combined
with its 0-based distance `length - 1 - i` from the last element. -/
theorem revEnumMap_getElem (f : Nat → Nat → Nat) (bs : List Nat) (i : Nat)
    (h : i < ((bs.reverse.enum.map fun p => f p.1 p.2).reverse).length) :
    ((bs.reverse.enum.map fun p => f p.1 p.2).reverse).get ⟨i, h⟩
      = f (bs.length - 1 - i) (bs.get ⟨i, by simpa using h⟩) := by
  have hi : i < bs.length := by simpa using h
  simp only [List.get_eq_getElem]
  rw [List.getElem_reverse, List.getElem_map, List.getElem_enum, List.getElem_reverse]
  simp only [List.length_map, List.enum_length, List.length_reverse]
  have e1 : bs.length - 1 - (bs.length - 1 - i) = i := by omega
  simp only [e1]

/-- The byte at index `i` of the encrypted name is the source byte shifted
down by its 1-based position `length - i` counted from the end. -/
theorem shiftDown_get (bs : List Nat) (i : Nat) (h : i < (shiftDown bs).length) :
    (shiftDown bs).get ⟨i, h⟩
      = sub8 (bs.get ⟨i, by simpa [shiftDown_length] using h⟩) (bs.length - i) := by
  have hi : i < bs.length := by simpa [shiftDown_length] using h
  unfold shiftDown at h ⊢
  have h2 : ((bs.reverse.enum.map fun p => sub8 p.2 (p.1 + 1)).reverse).get ⟨i, h⟩
      = sub8 (bs.get ⟨i, hi⟩) (bs.length - 1 - i + 1) :=
    revEnumMap_getElem (fun k b => sub8 b (k + 1)) bs i h
  rw [h2]
  congr 1
  omega

theorem shiftUp_get (bs : List Nat) (i : Nat) (h : i < (shiftUp bs).length) :
    (shiftUp bs).get ⟨i, h⟩
      = add8 (bs.get ⟨i, by simpa [shiftUp_length] using h⟩) (bs.length - i) := by
  have hi : i < bs.length := by simpa [shiftUp_length] using h
  unfold shiftUp at h ⊢
  have h2 : ((bs.reverse.enum.map fun p => add8 p.2 (p.1 + 1)).reverse).get ⟨i, h⟩
      = add8 (bs.get ⟨i, hi⟩) (bs.length - 1 - i + 1) :=
    revEnumMap_getElem (fun k b => add8 b (k + 1)) bs i h
  rw [h2]
  congr 1
  omega

/-- The positional cipher is invertible on byte sequences. -/
theorem shiftUp_shiftDown (bs : List Nat) (hb : ∀ b ∈ bs, b < 256) :
    shiftUp (shiftDown bs) = bs := by
  apply List.ext_getElem
  · simp [shiftUp_length, shiftDown_length]
  · intro i h1 h2
    show (shiftUp (shiftDown bs)).get ⟨i, h1⟩ = bs.get ⟨i, h2⟩
    rw [shiftUp_get, shiftDown_get]
    simp only [shiftDown_length]
    exact add8_sub8 _ _ (hb _ (List.get_mem bs i _))

/-- The encrypting byte transform is injective on byte sequences. -/
theorem shiftDown_injective (a b : List Nat) (ha : ∀ x ∈ a, x < 256)
    (hb : ∀ x ∈ b, x < 256) (h : shiftDown a = shiftDown b) : a = b := by
  have := congrArg shiftUp h
  rwa [shiftUp_shiftDown a ha, shiftUp_shiftDown b hb] at this

instance {ε α : Type} [DecidableEq ε] [DecidableEq α] : DecidableEq (Except ε α) := fun x y =>
  match x, y with
  | .ok a, .ok b =>
      if h : a = b then isTrue (by rw [h]) else isFalse (by intro hc; cases hc; exact h rfl)
  | .error a, .error b =>
      if h : a = b then isTrue (by rw [h]) else isFalse (by intro hc; cases hc; exact h rfl)
  | .ok _, .error _ => isFalse (by intro hc; cases hc)
  | .error _, .ok _ => isFalse (by intro hc; cases hc)

/-!
A concrete instance of the abstract text-codec interface, used to
instantiate theorems about the charset-parametric code on closed inputs.
It encodes the ASCII subset (which CP932 contains) one byte per character.
-/

/-- Concrete witness charset: encoder. -/
def asciiEnc (s : String) : Option (List Nat) :=
  if s.data.all fun c => c.toNat < 128 then some (s.data.map Char.toNat) else none

/-- Concrete witness charset: decoder. -/
def asciiDec (bs : List Nat) : Option String :=
  if bs.all fun b => b < 128 then some (String.mk (bs.map Char.ofNat)) else none

theorem asciiEnc_bytes (s : String) (bs : List Nat) (h : asciiEnc s = some bs) :
    ∀ b ∈ bs, b < 256 := by
  unfold asciiEnc at h
  split at h
  · next hall =>
      cases h
      intro b hbmem
      obtain ⟨c, hc, rfl⟩ := List.mem_map.mp hbmem
      have := List.all_eq_true.mp hall c hc
      simp only [decide_eq_true_eq] at this
      omega
  · exact absurd h (by simp)

theorem asciiDec_asciiEnc (s : String) (bs : List Nat) (h : asciiEnc s = some bs) :
    asciiDec bs = some s := by
  unfold asciiEnc at h
  split at h
  · next hall =>
      cases h
      unfold asciiDec
      have hall2 : ((s.data.map Char.toNat).all fun b => b < 128) = true := by
        rw [List.all_eq_true] at hall ⊢
        intro b hb
        obtain ⟨c, hc, rfl⟩ := List.mem_map.mp hb
        simpa using hall c hc
      rw [if_pos hall2]
      congr 1
      rw [List.map_map]
      have : (Char.ofNat ∘ Char.toNat) = id := by
        funext c
        simp [Char.ofNat_toNat]
      rw [this, List.map_id]
  · exact absurd h (by simp)

/-- C5: `encrypt_name(name)` first encodes `name` with the legacy double-byte
charset (here the abstract encoder `enc`), failing with `NameEncodeError`
exactly when the encoder reports an unrepresentable character; otherwise it
returns the encoded bytes where the byte at 0-based index `i` — 1-based
position `k = length - i` counted from the end — is replaced by
`(byte - k) mod 256`, with byte order preserved. -/
theorem encrypt_name_spec (enc : String → Option (List Nat)) (name : String) :
    (enc name = none → encrypt_name enc name = .error (.NameEncodeError name))
    ∧ (∀ bs, enc name = some bs → (∀ b ∈ bs, b < 256) →
        encrypt_name enc name
          = .ok (List.ofFn fun i : Fin bs.length =>
              ((((bs.get i : Nat) : Int) - ((bs.length - (i : Nat) : Nat) : Int)) % 256).toNat)) := by
  constructor
  · intro h
    simp [encrypt_name, h]
  · intro bs h hlt
    simp only [encrypt_name, h]
    congr 1
    apply List.ext_getElem
    · simp [shiftDown_length]
    · intro i h1 h2
      rw [List.getElem_ofFn]
      show (shiftDown bs).get ⟨i, h1⟩ = _
      rw [shiftDown_get]
      exact sub8_eq_int_mod _ _ (hlt _ (List.get_mem bs i _))

/-- Witness for C5: on the concrete ASCII charset instance and the name
`"ab"` (encoded bytes `[97, 98]`), the theorem evaluates to the encrypted
bytes `[97 - 2, 98 - 1] = [95, 97]`. -/
theorem encrypt_name_spec_witness : encrypt_name asciiEnc "ab" = .ok [95, 97] := by
  have h := (encrypt_name_spec asciiEnc "ab").2 [97, 98] (by decide) (by decide)
  rw [h]
  decide

/-- C4: for every string representable in the charset, decrypting the
encrypted name returns the original string; and encryption never collides on
two different representable strings whose encrypted forms have equal length.
The external charset codec is abstracted by `enc`/`dec`, assumed to satisfy
the black-box codec interface of spec §6 (decode inverts encode, encoded
output is bytes). -/
theorem name_cipher_inverse (enc : String → Option (List Nat))
    (dec : List Nat → Option String)
    (hround : ∀ s bs, enc s = some bs → dec bs = some s)
    (hbytes : ∀ s bs, enc s = some bs → ∀ b ∈ bs, b < 256) :
    (∀ s es, encrypt_name enc s = .ok es → decrypt_name dec es = .ok s)
    ∧ (∀ s t es et, encrypt_name enc s = .ok es → encrypt_name enc t = .ok et →
        es.length = et.length → s ≠ t → es ≠ et) := by
  constructor
  · intro s es hok
    cases henc : enc s with
    | none => simp [encrypt_name, henc] at hok
    | some bs =>
        simp only [encrypt_name, henc] at hok
        obtain rfl : shiftDown bs = es := by injection hok
        unfold decrypt_name
        rw [shiftUp_shiftDown bs (hbytes s bs henc), hround s bs henc]
  · intro s t es et hs ht _ hne heq
    cases hencs : enc s with
    | none => simp [encrypt_name, hencs] at hs
    | some bss =>
        cases henct : enc t with
        | none => simp [encrypt_name, henct] at ht
        | some bst =>
            simp only [encrypt_name, hencs] at hs
            simp only [encrypt_name, henct] at ht
            obtain rfl : shiftDown bss = es := by injection hs
            obtain rfl : shiftDown bst = et := by injection ht
            have hb : bss = bst :=
              shiftDown_injective bss bst (hbytes s bss hencs) (hbytes t bst henct) heq
            subst hb
            have := (hround s bss hencs).symm.trans (hround t bss henct)
            exact hne (by injection this)

/-- Witness for C4 at the concrete ASCII charset: decrypting the encryption
of `"ab"` recovers `"ab"`, and the encryptions of the distinct equal-length
strings `"ab"` and `"bb"` differ. -/
theorem name_cipher_inverse_witness :
    decrypt_name asciiDec [95, 97] = .ok "ab" ∧ ([95, 97] : List Nat) ≠ [96, 97] :=
  ⟨(name_cipher_inverse asciiEnc asciiDec asciiDec_asciiEnc asciiEnc_bytes).1 "ab" [95, 97]
      (by decide),
    (name_cipher_inverse asciiEnc asciiDec asciiDec_asciiEnc asciiEnc_bytes).2 "ab" "bb"
      [95, 97] [96, 97] (by decide) (by decide) (by decide) (by decide)⟩

/-! ## The pack pipeline (`handle_pack`, `src/lib.rs` lines 211-407)

The input directory tree is modelled as the list of regular files in
directory-discovery order, each given by its relative path (with the host's
`/` separators, as produced by `walkdir`/`strip_prefix` on a POSIX host) and
its content bytes.  `u8`/`u32` casts and wrapping arithmetic of the source
appear as explicit `% 256` / `% 4294967296`. -/

/-- One regular file of the input directory tree. -/
structure PFile where
  name : String
  data : List Nat
deriving DecidableEq

/-- `relative_path.to_string_lossy().replace("/", "\\")` (line 235): every
`/` character becomes a single backslash character. -/
def normSep (s : String) : String :=
  String.mk (s.data.map fun c => if c = '/' then '\\' else c)

/-- `PackFileInfo` (lines 199-209), together with the file's on-disk bytes
(read by `fs::read(full_path)` at line 265), which the embedding carries
explicitly instead of re-reading the path. -/
structure PackFileInfo where
  relative_path : String
  file_data : List Nat
  encrypted_name : List Nat
  /-- `metadata.len() as u32` (line 244). -/
  original_size : Nat
  compressed_data : Option (List Nat)
  compressed_size : Nat
  offset : Nat
deriving DecidableEq

/-- Step 1 of `handle_pack` (lines 228-250): walk the files in discovery
order, encrypt each separator-normalized relative name; the first
`encrypt_name` failure aborts the walk (`?` operator). -/
def collectFiles (enc : String → Option (List Nat)) :
    List PFile → Except ArcError (List PackFileInfo)
  | [] => .ok []
  | f :: fs =>
    match encrypt_name enc (normSep f.name) with
    | .error e => .error e
    | .ok en =>
      match collectFiles enc fs with
      | .error e => .error e
      | .ok rest =>
          .ok ({ relative_path := f.name, file_data := f.data, encrypted_name := en,
                 original_size := f.data.length % 4294967296, compressed_data := none,
                 compressed_size := 0, offset := 0 } :: rest)

/-- The LZSS compression call (lines 270-274): `compress_stack` through a
`SliceWriter` over a pre-allocated buffer of `bufLen` bytes.  The abstract
codec `comp` yields the encoder's full output stream; output exceeding the
buffer is a codec error (`SliceWriter` capacity exhausted). -/
def runCompress (comp : List Nat → Except String (List Nat)) (bufLen : Nat)
    (data : List Nat) : Except String (List Nat) :=
  match comp data with
  | .ok out => if out.length ≤ bufLen then .ok out else .error "slice writer full"
  | .error e => .error e

/-- Step 2 of `handle_pack` (lines 262-327): per-file read + optional
compression.  Compression runs only when requested and `original_size > 0`;
its result is kept only when `(compressed_len as u32) < original_size`;
codec failure falls back to storing the raw bytes. -/
def processFile (comp : List Nat → Except String (List Nat)) (compress : Bool)
    (fi : PackFileInfo) : PackFileInfo :=
  if compress ∧ 0 < fi.original_size then
    match runCompress comp (2 * fi.original_size) fi.file_data with
    | .ok out =>
        if out.length % 4294967296 < fi.original_size then
          { fi with compressed_data := some out,
                    compressed_size := out.length % 4294967296 }
        else
          { fi with compressed_data := some fi.file_data,
                    compressed_size := fi.original_size }
    | .error _ =>
        { fi with compressed_data := some fi.file_data,
                  compressed_size := fi.original_size }
  else
    { fi with compressed_data := some fi.file_data,
              compressed_size := fi.original_size }

/-- `u32` wrapping subtraction. -/
def sub32 (a b : Nat) : Nat :=
  (a % 4294967296 + (4294967296 - b % 4294967296)) % 4294967296

/-- Step 3 of `handle_pack`, first loop (lines 330-338): `current_offset`
starts at the 4-byte global header size and accumulates
`1 + encrypted_name.len() as u32 + 4 + 4 + 4` per entry in `u32`
arithmetic (the inner casts collapse into the single outer `% 2^32`). -/
def metaEndOffset (infos : List PackFileInfo) : Nat :=
  infos.foldl (fun cur fi => (cur + 1 + fi.encrypted_name.length + 4 + 4 + 4) % 4294967296) 4

/-- Step 3 of `handle_pack`, second loop (lines 343-358): each entry's
offset is the running `current_offset`, advanced by `compressed_size` in
`u32` arithmetic. -/
def assignOffsets (cur : Nat) : List PackFileInfo → List PackFileInfo
  | [] => []
  | fi :: rest =>
      { fi with offset := cur } :: assignOffsets ((cur + fi.compressed_size) % 4294967296) rest

/-- One metadata entry as serialized by lines 370-374: the name-length byte
is `encrypted_name.len() as u8`, followed by the full encrypted name and the
three big-endian `u32` fields. -/
def entryMetaBytes (fi : PackFileInfo) : List Nat :=
  (fi.encrypted_name.length % 256) :: fi.encrypted_name
    ++ be32 fi.compressed_size ++ be32 fi.original_size ++ be32 fi.offset

/-- Random-access file write: overwrite `data` at byte position `pos`,
zero-filling any hole created by seeking past the end. -/
def writeAt (buf : List Nat) (pos : Nat) (data : List Nat) : List Nat :=
  buf.take pos ++ List.replicate (pos - buf.length) 0 ++ data ++ buf.drop (pos + data.length)

/-- Step 4 of `handle_pack`, data loop (lines 379-401): for each entry,
if the current stream position disagrees with the assigned offset, seek to
the offset, then write the processed data; a missing processed buffer is an
`InvalidFormat` error. -/
def writeDataBlocks : List Nat → Nat → List PackFileInfo → Except ArcError (List Nat)
  | buf, _, [] => .ok buf
  | buf, pos, fi :: rest =>
      match fi.compressed_data with
      | some data =>
          let pos2 := if pos = fi.offset then pos else fi.offset
          writeDataBlocks (writeAt buf pos2 data) (pos2 + data.length) rest
      | none => .error (.InvalidFormat "missing processed data")

/-- `handle_pack` (lines 211-407): walk + encrypt, the empty-directory
special case (4-byte archive with header value 4, lines 252-259),
per-file processing, layout, and the serialized write.  The header written
for a non-empty directory is `metadata_block_size = current_offset - 4`
(lines 339, 365). -/
def handle_pack (enc : String → Option (List Nat))
    (comp : List Nat → Except String (List Nat)) (input : List PFile)
    (compress : Bool) : Except ArcError (List Nat) :=
  match collectFiles enc input with
  | .error e => .error e
  | .ok infos =>
    if infos.isEmpty then .ok (le32 4)
    else
      let processed := infos.map (processFile comp compress)
      let metaEnd := metaEndOffset processed
      let withOffsets := assignOffsets metaEnd processed
      let buf0 := le32 (sub32 metaEnd 4) ++ (withOffsets.map entryMetaBytes).flatten
      writeDataBlocks buf0 buf0.length withOffsets

/-! ## The unpack pipeline (`handle_unpack`, `src/lib.rs` lines 94-194) -/

/-- `FileEntry` (lines 51-58). -/
structure FileEntry where
  encrypted_name : List Nat
  name : String
  compressed_size : Nat
  original_size : Nat
  offset : Nat
deriving DecidableEq

/-- Seek to `pos` and `read_exact` an `n`-byte buffer: fails (with an I/O
error at the call site) iff fewer than `n` bytes remain. -/
def readBytes (bytes : List Nat) (pos n : Nat) : Option (List Nat) :=
  if n ≤ bytes.length - pos then some ((bytes.drop pos).take n) else none

/-- Reading the global header (line 113): 4 little-endian bytes. -/
def readHeader (bytes : List Nat) : Except ArcError Nat :=
  match readBytes bytes 0 4 with
  | none => .error (.Io "failed to fill whole buffer")
  | some hb => .ok (le32v hb)

/-- The metadata loop of `handle_unpack` (lines 117-138): starting at byte
position 4, while the cursor is below the header value `m`, read one entry
(name-length byte, encrypted name, three big-endian `u32`s) and decrypt its
name.  Each iteration advances the cursor by at least 13 bytes, so `m`
iterations over-suffice; `fuel` makes that termination measure structural
and is instantiated with `m` by `parseMetadata`. -/
def parseEntriesFuel (dec : List Nat → Option String) (bytes : List Nat) (m : Nat) :
    Nat → Nat → Except ArcError (List FileEntry)
  | 0, pos => if pos < m then .error (.InvalidFormat "fuel exhausted") else .ok []
  | fuel + 1, pos =>
      if pos < m then
        match readBytes bytes pos 1 with
        | none => .error (.Io "failed to fill whole buffer")
        | some nlb =>
          let name_len := nlb.headD 0
          match readBytes bytes (pos + 1) name_len with
          | none => .error (.Io "failed to fill whole buffer")
          | some en =>
            match readBytes bytes (pos + 1 + name_len) 4 with
            | none => .error (.Io "failed to fill whole buffer")
            | some csb =>
              match readBytes bytes (pos + 1 + name_len + 4) 4 with
              | none => .error (.Io "failed to fill whole buffer")
              | some osb =>
                match readBytes bytes (pos + 1 + name_len + 8) 4 with
                | none => .error (.Io "failed to fill whole buffer")
                | some offb =>
                  match decrypt_name dec en with
                  | .error e => .error e
                  | .ok name =>
                    match parseEntriesFuel dec bytes m fuel (pos + 1 + name_len + 12) with
                    | .error e => .error e
                    | .ok rest =>
                        .ok ({ encrypted_name := en, name := name,
                               compressed_size := be32v csb,
                               original_size := be32v osb,
                               offset := be32v offb } :: rest)
      else .ok []

/-- Header read plus the metadata loop (steps 1-2 of `handle_unpack`). -/
def parseMetadata (dec : List Nat → Option String) (bytes : List Nat) :
    Except ArcError (List FileEntry) :=
  match readHeader bytes with
  | .error e => .error e
  | .ok m => parseEntriesFuel dec bytes m m 4

/-- Per-entry extraction (lines 151-189): seek to `offset`, read exactly
`compressed_size` bytes; when `compressed_size != original_size` run the
LZSS decoder into a `4 * original_size`-byte buffer (decoder failure is
fatal; output beyond the buffer is a decoder failure) and keep exactly the
reported output, else the bytes are already raw.  The output path is the
decrypted name joined under the output root. -/
def extractEntry (decomp : List Nat → Except String (List Nat)) (bytes : List Nat)
    (e : FileEntry) : Except ArcError (String × List Nat) :=
  match readBytes bytes e.offset e.compressed_size with
  | none => .error (.Io "failed to fill whole buffer")
  | some compressed_data =>
      if e.compressed_size ≠ e.original_size then
        match decomp compressed_data with
        | .error msg => .error (.LzssDecompressError msg)
        | .ok out =>
            if out.length ≤ 4 * e.original_size then .ok (e.name, out)
            else .error (.LzssDecompressError "slice writer full")
      else .ok (e.name, compressed_data)

/-- `handle_unpack` (lines 94-194): parse the header and metadata, then
extract every entry; the first failing entry aborts the whole run
(`collect::<Result<_, _>>`). -/
def handle_unpack (dec : List Nat → Option String)
    (decomp : List Nat → Except String (List Nat)) (bytes : List Nat) :
    Except ArcError (List (String × List Nat)) :=
  match parseMetadata dec bytes with
  | .error e => .error e
  | .ok entries => entries.mapM (extractEntry decomp bytes)

/-- C1: evaluating `handle_pack` on the one-file directory `{"a" ↦ [104, 105]}`
(encrypted name length 1, so `4 + Σ(1 + len + 12) = 18`): the 4-byte
little-endian header value actually written is the metadata block size `14`,
not the absolute metadata end offset `18` the claim (and the format comment
at `src/lib.rs` lines 21-23) require. -/
theorem pack_header_not_end_offset :
    handle_pack asciiEnc (fun _ => .error "unused") [⟨"a", [104, 105]⟩] false
      = .ok [14, 0, 0, 0, 1, 96, 0, 0, 0, 2, 0, 0, 0, 2, 0, 0, 0, 18, 104, 105]
    ∧ le32v [14, 0, 0, 0] = 14
    ∧ (14 : Nat) ≠ 4 + (1 + 1 + 12) := by
  refine ⟨by decide, by decide, by decide⟩

/-- C3: on the same archive, the single entry's stored `dataOffset` is 18 =
(4 + metadata block size) + 0, while the header value is 14; so
`dataOffset ≠ header + Σ_{j<0} compressedSize`, refuting the claim's reading
of the stored header as `metadataEndOffset`. -/
theorem pack_offset_vs_header :
    parseMetadata asciiDec [14, 0, 0, 0, 1, 96, 0, 0, 0, 2, 0, 0, 0, 2, 0, 0, 0, 18, 104, 105]
      = .ok [⟨[96], "a", 2, 2, 18⟩]
    ∧ le32v [14, 0, 0, 0] = 14
    ∧ (18 : Nat) ≠ 14 + 0
    ∧ (18 : Nat) = (14 + 4) + 0 := by
  refine ⟨by decide, by decide, by decide, by decide⟩

/-- C10: for an entry with `compressedSize ≠ originalSize`, the bytes written
are exactly the decoder's reported output, never length-checked against
`originalSize`: any output length that fits the `4 * originalSize` buffer is
accepted without error, even when it differs from `originalSize`. -/
theorem unpack_keeps_decoder_output (decomp : List Nat → Except String (List Nat))
    (bytes : List Nat) (e : FileEntry) (c out : List Nat)
    (hread : readBytes bytes e.offset e.compressed_size = some c)
    (hneq : e.compressed_size ≠ e.original_size)
    (hdec : decomp c = .ok out)
    (hfit : out.length ≤ 4 * e.original_size)
    (hdiff : out.length ≠ e.original_size) :
    extractEntry decomp bytes e = .ok (e.name, out) := by
  simp only [extractEntry, hread, if_pos hneq, hdec, if_pos hfit]

/-- Witness for C10: an entry declaring `originalSize = 2` whose data
"decompresses" to 3 bytes is extracted without error, yielding those
3 bytes. -/
theorem unpack_keeps_decoder_output_witness :
    extractEntry (fun _ => .ok [1, 2, 3]) [5] ⟨[], "f", 1, 2, 0⟩ = .ok ("f", [1, 2, 3]) :=
  unpack_keeps_decoder_output (fun _ => .ok [1, 2, 3]) [5] ⟨[], "f", 1, 2, 0⟩ [5] [1, 2, 3]
    (by decide) (by decide) (by decide) (by decide) (by decide)

/-- If the metadata loop returns successfully, either the file was long
enough to contain the whole region up to `m`, or the cursor started at or
beyond `m`.  (Each successful iteration keeps every read within the file.) -/
theorem parseEntriesFuel_ok_bound (dec : List Nat → Option String) (bytes : List Nat)
    (m : Nat) :
    ∀ fuel pos es, parseEntriesFuel dec bytes m fuel pos = .ok es →
      m ≤ bytes.length ∨ m ≤ pos := by
  intro fuel
  induction fuel with
  | zero =>
      intro pos es h
      unfold parseEntriesFuel at h
      split at h
      · exact absurd h (by simp)
      · right; omega
  | succ n ih =>
      intro pos es h
      unfold parseEntriesFuel at h
      split at h
      · next hlt =>
          cases h1 : readBytes bytes pos 1 with
          | none => simp only [h1] at h; exact absurd h (by simp)
          | some nlb =>
            simp only [h1] at h
            cases h2 : readBytes bytes (pos + 1) (nlb.headD 0) with
            | none => simp only [h2] at h; exact absurd h (by simp)
            | some en =>
              simp only [h2] at h
              cases h3 : readBytes bytes (pos + 1 + nlb.headD 0) 4 with
              | none => simp only [h3] at h; exact absurd h (by simp)
              | some csb =>
                simp only [h3] at h
                cases h4 : readBytes bytes (pos + 1 + nlb.headD 0 + 4) 4 with
                | none => simp only [h4] at h; exact absurd h (by simp)
                | some osb =>
                  simp only [h4] at h
                  cases h5 : readBytes bytes (pos + 1 + nlb.headD 0 + 8) 4 with
                  | none => simp only [h5] at h; exact absurd h (by simp)
                  | some offb =>
                    simp only [h5] at h
                    cases h6 : decrypt_name dec en with
                    | error e => simp only [h6] at h; exact absurd h (by simp)
                    | ok name =>
                      simp only [h6] at h
                      cases h7 : parseEntriesFuel dec bytes m n (pos + 1 + nlb.headD 0 + 12) with
                      | error e => simp only [h7] at h; exact absurd h (by simp)
                      | ok rest =>
                        have hin : pos + 1 + nlb.headD 0 + 8 + 4 ≤ bytes.length := by
                          unfold readBytes at h5
                          split at h5
                          · omega
                          · exact absurd h5 (by simp)
                        rcases ih _ _ h7 with hL | hP
                        · exact Or.inl hL
                        · exact Or.inl (by omega)
      · right; omega

/-- C8: an archive whose byte stream is shorter than the header's
`metadataEndOffset` value — i.e. truncated before the metadata cursor can
reach it — always makes `handle_unpack` return a reported `ArcError` from
metadata deserialization (and, the embedding being total, it terminates). -/
theorem truncated_metadata_errors (dec : List Nat → Option String)
    (decomp : List Nat → Except String (List Nat)) (bytes : List Nat) (m : Nat)
    (hm : readHeader bytes = .ok m) (htrunc : bytes.length < m) :
    ∃ e, handle_unpack dec decomp bytes = .error e := by
  have h4 : 4 ≤ bytes.length := by
    by_contra hlt
    push_neg at hlt
    have hnone : readBytes bytes 0 4 = none := by
      unfold readBytes
      rw [if_neg (by omega : ¬ (4 ≤ bytes.length - 0))]
    unfold readHeader at hm
    simp only [hnone] at hm
    exact absurd hm (by simp)
  unfold handle_unpack parseMetadata
  simp only [hm]
  cases hp : parseEntriesFuel dec bytes m m 4 with
  | error e => exact ⟨e, rfl⟩
  | ok es =>
      rcases parseEntriesFuel_ok_bound dec bytes m m 4 es hp with hL | hP
      · exact absurd htrunc (by omega)
      · exact absurd htrunc (by omega)

/-- Witness for C8: the 4-byte file `[10, 0, 0, 0]` declares
`metadataEndOffset = 10` but ends at byte 4; unpacking reports an error. -/
theorem truncated_metadata_errors_witness :
    ∃ e, handle_unpack asciiDec (fun _ => .error "x") [10, 0, 0, 0] = .error e :=
  truncated_metadata_errors asciiDec (fun _ => .error "x") [10, 0, 0, 0] 10
    (by decide) (by decide)

/-- C6: per-file compression policy of `handle_pack`.  With compression
requested and a non-empty file, the LZSS result is kept — with
`compressed_size` set to its length — exactly when it is strictly smaller
than `original_size`; in every other case (codec output not smaller, codec
failure, empty file, or compression not requested) the raw bytes are stored
with `compressed_size = original_size`.  The two size hypotheses rule out
`usize → u32` truncation (they hold for any real file below 4 GiB). -/
theorem compression_policy (comp : List Nat → Except String (List Nat))
    (fi : PackFileInfo) (hos : fi.original_size = fi.file_data.length)
    (h32 : fi.file_data.length < 4294967296) :
    (∀ out, fi.file_data ≠ [] → comp fi.file_data = .ok out → out.length < 4294967296 →
        ((out.length < fi.file_data.length →
            processFile comp true fi
              = { fi with compressed_data := some out, compressed_size := out.length })
          ∧ (¬ out.length < fi.file_data.length →
            processFile comp true fi
              = { fi with compressed_data := some fi.file_data,
                          compressed_size := fi.original_size })))
    ∧ (∀ msg, fi.file_data ≠ [] → comp fi.file_data = .error msg →
        processFile comp true fi
          = { fi with compressed_data := some fi.file_data,
                      compressed_size := fi.original_size })
    ∧ (fi.file_data = [] →
        processFile comp true fi
          = { fi with compressed_data := some fi.file_data,
                      compressed_size := fi.original_size })
    ∧ (processFile comp false fi
        = { fi with compressed_data := some fi.file_data,
                    compressed_size := fi.original_size }) := by
  have hmod : fi.file_data.length % 4294967296 = fi.file_data.length :=
    Nat.mod_eq_of_lt h32
  refine ⟨?_, ?_, ?_, ?_⟩
  · intro out hne hok hout32
    have hpos : 0 < fi.original_size := by
      rw [hos]
      exact List.length_pos.mpr hne
    constructor
    · intro hsm
      have hbuf : out.length ≤ 2 * fi.original_size := by omega
      simp only [processFile, runCompress, hok]
      rw [if_pos (by exact ⟨trivial, hpos⟩)]
      rw [if_pos hbuf]
      simp only [Nat.mod_eq_of_lt hout32]
      rw [if_pos (by omega)]
    · intro hsm
      by_cases hbuf : out.length ≤ 2 * fi.original_size
      · simp only [processFile, runCompress, hok]
        rw [if_pos (by exact ⟨trivial, hpos⟩)]
        rw [if_pos hbuf]
        simp only [Nat.mod_eq_of_lt hout32]
        rw [if_neg (by omega)]
      · simp only [processFile, runCompress, hok]
        rw [if_pos (by exact ⟨trivial, hpos⟩)]
        rw [if_neg hbuf]
  · intro msg hne herr
    have hpos : 0 < fi.original_size := by
      rw [hos]
      exact List.length_pos.mpr hne
    simp only [processFile, runCompress, herr]
    rw [if_pos (by exact ⟨trivial, hpos⟩)]
  · intro hnil
    simp only [processFile]
    rw [if_neg (by rw [hos, hnil]; simp)]
  · simp only [processFile]
    rw [if_neg (by simp)]

/-- Witness for C6, keep-branch: a 4-byte file whose codec output is the
single byte `[7]` (strictly smaller) is stored compressed with
`compressed_size = 1`. -/
theorem compression_policy_witness :
    processFile (fun _ => .ok [7]) true
        ⟨"a", [0, 0, 0, 0], [96], 4, none, 0, 0⟩
      = ⟨"a", [0, 0, 0, 0], [96], 4, some [7], 1, 0⟩ :=
  ((compression_policy (fun _ => .ok [7])
      ⟨"a", [0, 0, 0, 0], [96], 4, none, 0, 0⟩ (by decide) (by decide)).1
    [7] (by decide) (by decide) (by decide)).1 (by decide)

/-- With a codec that always fails, per-file processing with compression
requested is identical to processing with compression disabled
(`src/lib.rs` lines 299-309: the `Err` arm stores the raw bytes). -/
theorem processFile_comp_fails (comp : List Nat → Except String (List Nat))
    (fi : PackFileInfo) (hfail : ∀ d, ∃ m, comp d = .error m) :
    processFile comp true fi = processFile comp false fi := by
  obtain ⟨m, hm⟩ := hfail fi.file_data
  simp only [processFile, runCompress, hm]
  by_cases hpos : 0 < fi.original_size
  · rw [if_pos (by exact ⟨trivial, hpos⟩), if_neg (by simp)]
  · rw [if_neg (by simpa using hpos), if_neg (by simp)]

/-- If one element of a traversal fails, the whole `mapM` over `Except`
fails (the embedding of `collect::<Result<...>>` over the parallel batch). -/
theorem mapM_error_of_mem {α β : Type} (f : α → Except ArcError β) (l : List α) (x : α)
    (hx : x ∈ l) (err : ArcError) (hf : f x = .error err) :
    ∃ e2, l.mapM f = .error e2 := by
  induction l with
  | nil => cases hx
  | cons a tl ih =>
      cases hfa : f a with
      | error e =>
          refine ⟨e, ?_⟩
          rw [List.mapM_cons, hfa]
          rfl
      | ok b =>
          rcases List.mem_cons.mp hx with rfl | hmem
          · rw [hfa] at hf
            exact absurd hf (by simp)
          · obtain ⟨e2, he2⟩ := ih hmem
            refine ⟨e2, ?_⟩
            rw [List.mapM_cons, hfa]
            show (List.cons b <$> List.mapM f tl) = Except.error e2
            rw [he2]
            rfl

/-- C7: compression failure during pack is non-fatal — with an
always-failing codec, packing with compression behaves exactly like packing
without it (every file stored raw, run continues) — whereas during unpack a
decompression failure on any entry aborts the whole run with an error. -/
theorem compression_failure_nonfatal_unpack_fatal :
    (∀ (enc : String → Option (List Nat)) (comp : List Nat → Except String (List Nat))
        (input : List PFile), (∀ d, ∃ m, comp d = .error m) →
        handle_pack enc comp input true = handle_pack enc comp input false)
    ∧ (∀ (dec : List Nat → Option String) (decomp : List Nat → Except String (List Nat))
        (bytes : List Nat) (entries : List FileEntry) (e : FileEntry) (c : List Nat)
        (msg : String),
        parseMetadata dec bytes = .ok entries → e ∈ entries →
        readBytes bytes e.offset e.compressed_size = some c →
        e.compressed_size ≠ e.original_size →
        decomp c = .error msg →
        ∃ err, handle_unpack dec decomp bytes = .error err) := by
  constructor
  · intro enc comp input hfail
    unfold handle_pack
    cases hc : collectFiles enc input with
    | error e => rfl
    | ok infos =>
        simp only
        have hmap : infos.map (processFile comp true) = infos.map (processFile comp false) :=
          List.map_congr_left fun fi _ => processFile_comp_fails comp fi hfail
        rw [hmap]
  · intro dec decomp bytes entries e c msg hparse hmem hread hneq hdec
    have hx : extractEntry decomp bytes e = .error (.LzssDecompressError msg) := by
      simp only [extractEntry, hread, if_pos hneq, hdec]
    unfold handle_unpack
    simp only [hparse]
    exact mapM_error_of_mem _ entries e hmem _ hx

/-- Witness for C7: packing `{"a" ↦ [1, 2]}` with an always-failing codec
and compression on equals packing it with compression off; and unpacking a
concrete archive holding one entry with `compressedSize = 1 ≠ 2 =
originalSize` under a failing decoder reports an error. -/
theorem compression_failure_nonfatal_unpack_fatal_witness :
    (handle_pack asciiEnc (fun _ => .error "fail") [⟨"a", [1, 2]⟩] true
      = handle_pack asciiEnc (fun _ => .error "fail") [⟨"a", [1, 2]⟩] false)
    ∧ ∃ err, handle_unpack asciiDec (fun _ => .error "bad")
        [17, 0, 0, 0, 0, 0, 0, 0, 1, 0, 0, 0, 2, 0, 0, 0, 17, 9] = .error err :=
  ⟨compression_failure_nonfatal_unpack_fatal.1 asciiEnc (fun _ => .error "fail")
      [⟨"a", [1, 2]⟩] (fun _ => ⟨"fail", rfl⟩),
    compression_failure_nonfatal_unpack_fatal.2 asciiDec (fun _ => .error "bad")
      [17, 0, 0, 0, 0, 0, 0, 0, 1, 0, 0, 0, 2, 0, 0, 0, 17, 9]
      [⟨[], "", 1, 2, 17⟩] ⟨[], "", 1, 2, 17⟩ [9] "bad"
      (by decide) (by decide) (by decide) (by decide) rfl⟩

/-- Per-file processing touches only the two `compressed_*` fields, and
always ends with `compressed_data = some _` (every branch of lines 276-324
stores either the codec output or the raw bytes). -/
theorem processFile_fields (comp : List Nat → Except String (List Nat)) (compress : Bool)
    (fi : PackFileInfo) :
    (processFile comp compress fi).relative_path = fi.relative_path
    ∧ (processFile comp compress fi).file_data = fi.file_data
    ∧ (processFile comp compress fi).encrypted_name = fi.encrypted_name
    ∧ (processFile comp compress fi).original_size = fi.original_size
    ∧ (processFile comp compress fi).offset = fi.offset
    ∧ ∃ d, (processFile comp compress fi).compressed_data = some d := by
  unfold processFile
  split
  · cases h : runCompress comp (2 * fi.original_size) fi.file_data with
    | ok out =>
        simp only [h]
        split <;> simp
    | error e =>
        simp only [h]
        simp
  · simp

theorem entryMetaBytes_length (fi : PackFileInfo) :
    (entryMetaBytes fi).length = 13 + fi.encrypted_name.length := by
  simp [entryMetaBytes, be32]
  omega

/-- Writing at the current end of the file is plain appending. -/
theorem writeAt_append (buf d : List Nat) : writeAt buf buf.length d = buf ++ d := by
  unfold writeAt
  rw [List.take_length, Nat.sub_self]
  simp [List.drop_eq_nil_of_le]

theorem le32_length (n : Nat) : (le32 n).length = 4 := by
  simp [le32]

/-- C9: `handle_pack` never validates that an encrypted filename fits the
one-byte `nameLength` field.  For a file whose encrypted name has
`L > 255` bytes, packing succeeds without any error, the written name-length
byte is `L % 256 ≠ L`, and the full `L` encrypted-name bytes are still
written right after it — declared length and stored name disagree. -/
theorem pack_never_validates_name_length (enc : String → Option (List Nat))
    (comp : List Nat → Except String (List Nat)) (compress : Bool) (f : PFile)
    (bs : List Nat) (henc : enc (normSep f.name) = some bs)
    (hlong : 255 < bs.length) (hfit : bs.length + 17 < 4294967296) :
    ∃ a, handle_pack enc comp [f] compress = .ok a
      ∧ a.get? 4 = some (bs.length % 256)
      ∧ readBytes a 5 bs.length = some (shiftDown bs)
      ∧ bs.length % 256 ≠ bs.length := by
  have hcol : collectFiles enc [f] = .ok [⟨f.name, f.data, shiftDown bs,
      f.data.length % 4294967296, none, 0, 0⟩] := by
    simp only [collectFiles, encrypt_name, henc]
  set fi0 : PackFileInfo :=
    ⟨f.name, f.data, shiftDown bs, f.data.length % 4294967296, none, 0, 0⟩ with hfi0
  set p := processFile comp compress fi0 with hp
  obtain ⟨hrp, hfd, hen, hos, hoff, d, hd⟩ := processFile_fields comp compress fi0
  have henval : p.encrypted_name = shiftDown bs := hen
  have henlen : p.encrypted_name.length = bs.length := by
    rw [henval, shiftDown_length]
  have hmeta : metaEndOffset [p] = 17 + bs.length := by
    simp only [metaEndOffset, List.foldl_cons, List.foldl_nil, henlen]
    rw [Nat.mod_eq_of_lt (by omega)]
    omega
  set q : PackFileInfo := { p with offset := 17 + bs.length } with hq
  have hqen : q.encrypted_name = shiftDown bs := henval
  have hqenlen : q.encrypted_name.length = bs.length := henlen
  have hqd : q.compressed_data = some d := hd
  have hbuflen : (le32 (sub32 (17 + bs.length) 4) ++ entryMetaBytes q).length
      = 17 + bs.length := by
    rw [List.length_append, le32_length, entryMetaBytes_length, hqenlen]
    omega
  have hwrite : ∀ buf : List Nat, buf.length = 17 + bs.length →
      writeDataBlocks buf buf.length [q] = .ok (buf ++ d) := by
    intro buf hlen
    unfold writeDataBlocks
    rw [show q.compressed_data = some d from hd]
    rw [if_pos hlen]
    show writeDataBlocks (writeAt buf buf.length d) (buf.length + d.length) [] = .ok (buf ++ d)
    rw [writeAt_append]
    rfl
  have hrun : handle_pack enc comp [f] compress
      = .ok ((le32 (sub32 (17 + bs.length) 4) ++ entryMetaBytes q) ++ d) := by
    simp only [handle_pack, hcol]
    rw [if_neg (by simp)]
    simp only [List.map_cons, List.map_nil, ← hp, hmeta, assignOffsets, ← hq,
      List.flatten_cons, List.flatten_nil, List.append_nil]
    exact hwrite _ hbuflen
  refine ⟨_, hrun, ?_, ?_, by omega⟩
  · have hsplit : (le32 (sub32 (17 + bs.length) 4) ++ entryMetaBytes q) ++ d
        = le32 (sub32 (17 + bs.length) 4) ++ (entryMetaBytes q ++ d) := by
      rw [List.append_assoc]
    rw [hsplit]
    rw [List.get?_append_right (by rw [le32_length])]
    rw [le32_length]
    simp only [entryMetaBytes, hqenlen]
    rfl
  · unfold readBytes
    rw [if_pos (by
      rw [List.length_append, hbuflen]
      omega)]
    have hshape : (le32 (sub32 (17 + bs.length) 4) ++ entryMetaBytes q) ++ d
        = (le32 (sub32 (17 + bs.length) 4)
            ++ [q.encrypted_name.length % 256])
          ++ (shiftDown bs
            ++ (be32 q.compressed_size ++ be32 q.original_size ++ be32 q.offset ++ d)) := by
      simp only [entryMetaBytes]
      simp [List.append_assoc, henval]
    rw [hshape]
    have h5 : (le32 (sub32 (17 + bs.length) 4) ++ [q.encrypted_name.length % 256]).length
        = 5 := by
      rw [List.length_append, le32_length]
      rfl
    rw [← h5, List.drop_left]
    have hlen2 : bs.length = (shiftDown bs).length := (shiftDown_length bs).symm
    rw [hlen2, List.take_left]

set_option maxRecDepth 8192 in
/-- Witness for C9: a file whose 256-character ASCII name encodes to 256
bytes is packed without error; the written name-length byte is
`256 % 256 = 0` while all 256 encrypted-name bytes follow it. -/
theorem pack_never_validates_name_length_witness :
    ∃ a, handle_pack asciiEnc (fun _ => .error "x")
        [⟨String.mk (List.replicate 256 'a'), []⟩] false = .ok a
      ∧ a.get? 4 = some ((List.replicate 256 (97 : Nat)).length % 256)
      ∧ readBytes a 5 (List.replicate 256 (97 : Nat)).length
          = some (shiftDown (List.replicate 256 97))
      ∧ (List.replicate 256 (97 : Nat)).length % 256 ≠ (List.replicate 256 (97 : Nat)).length :=
  pack_never_validates_name_length asciiEnc (fun _ => .error "x") false
    ⟨String.mk (List.replicate 256 'a'), []⟩ (List.replicate 256 97)
    (by decide) (by decide) (by decide)

/-- C2 counterexample: pack then unpack of the one-file tree
`{"a/b" ↦ [104]}` (a nested relative path) yields the single file literally
named `a\\b` — pack normalizes `/` to `\\` (line 235) and unpack joins the
decrypted name as-is (line 152), performing no reverse translation — so the
original map is not reproduced. -/
theorem roundtrip_nested_path_fails :
    handle_pack asciiEnc (fun _ => .error "x") [⟨"a/b", [104]⟩] false
      = .ok [16, 0, 0, 0, 3, 94, 90, 97, 0, 0, 0, 1, 0, 0, 0, 1, 0, 0, 0, 20, 104]
    ∧ handle_unpack asciiDec (fun _ => .error "x")
        [16, 0, 0, 0, 3, 94, 90, 97, 0, 0, 0, 1, 0, 0, 0, 1, 0, 0, 0, 20, 104]
      = .ok [("a\\b", [104])]
    ∧ ("a\\b" : String) ≠ "a/b"
    ∧ handle_unpack asciiDec (fun _ => .error "x")
        [16, 0, 0, 0, 3, 94, 90, 97, 0, 0, 0, 1, 0, 0, 0, 1, 0, 0, 0, 20, 104]
      ≠ .ok [("a/b", [104])] := by
  refine ⟨by decide, by decide, by decide, by decide⟩

/-- The charset-encoded bytes of a name (defined when the encoder accepts
the name). -/
def encBytes (enc : String → Option (List Nat)) (s : String) : List Nat :=
  (enc s).getD []

/-- The bytes `handle_pack` stores for a file's content: the mirrored
decision structure of `processFile` (lines 268-324), expressed on the raw
content. -/
def storedBytes (comp : List Nat → Except String (List Nat)) (compress : Bool)
    (data : List Nat) : List Nat :=
  if compress ∧ 0 < data.length % 4294967296 then
    match runCompress comp (2 * (data.length % 4294967296)) data with
    | .ok out => if out.length % 4294967296 < data.length % 4294967296 then out else data
    | .error _ => data
  else data

/-- What a collected-and-processed `PackFileInfo` looks like, as a function
of the input file. -/
def packedInfo (enc : String → Option (List Nat))
    (comp : List Nat → Except String (List Nat)) (compress : Bool)
    (f : PFile) : PackFileInfo :=
  ⟨f.name, f.data, shiftDown (encBytes enc f.name), f.data.length % 4294967296,
    some (storedBytes comp compress f.data),
    (storedBytes comp compress f.data).length % 4294967296, 0⟩

theorem runCompress_ok (comp : List Nat → Except String (List Nat)) (bufLen : Nat)
    (data out : List Nat) :
    runCompress comp bufLen data = .ok out ↔ comp data = .ok out ∧ out.length ≤ bufLen := by
  unfold runCompress
  cases hc : comp data with
  | ok o =>
      dsimp only
      constructor
      · intro h
        split at h
        · next hle =>
            injection h with h2
            subst h2
            exact ⟨rfl, hle⟩
        · exact absurd h (by simp)
      · rintro ⟨h1, hle⟩
        injection h1 with h1
        subst h1
        rw [if_pos hle]
  | error e =>
      dsimp only
      constructor
      · intro h
        exact absurd h (by simp)
      · rintro ⟨h1, _⟩
        exact absurd h1 (by simp)

theorem storedBytes_cases (comp : List Nat → Except String (List Nat)) (compress : Bool)
    (data : List Nat) :
    storedBytes comp compress data = data
    ∨ (comp data = .ok (storedBytes comp compress data)
        ∧ (storedBytes comp compress data).length % 4294967296 < data.length % 4294967296) := by
  unfold storedBytes
  split
  · cases h : runCompress comp (2 * (data.length % 4294967296)) data with
    | ok out =>
        dsimp only
        obtain ⟨hcomp, hle⟩ := (runCompress_ok comp _ data out).mp h
        by_cases hlt : out.length % 4294967296 < data.length % 4294967296
        · right
          rw [if_pos hlt]
          exact ⟨hcomp, hlt⟩
        · left
          rw [if_neg hlt]
    | error e =>
        left
        rfl
  · left
    rfl

theorem storedBytes_length_le (comp : List Nat → Except String (List Nat)) (compress : Bool)
    (data : List Nat) (hsmall : 2 * data.length < 4294967296) :
    (storedBytes comp compress data).length ≤ data.length := by
  have hd : data.length % 4294967296 = data.length := Nat.mod_eq_of_lt (by omega)
  unfold storedBytes
  split
  · cases h : runCompress comp (2 * (data.length % 4294967296)) data with
    | ok out =>
        dsimp only
        obtain ⟨hcomp, hle⟩ := (runCompress_ok comp _ data out).mp h
        rw [hd] at hle
        have hmod : out.length % 4294967296 = out.length := Nat.mod_eq_of_lt (by omega)
        by_cases hlt : out.length % 4294967296 < data.length % 4294967296
        · rw [if_pos hlt]
          omega
        · rw [if_neg hlt]
    | error e => exact le_refl _
  · exact le_refl _

/-- A name without `/` characters is untouched by separator normalization. -/
theorem normSep_eq_of_flat (s : String) (h : ('/' : Char) ∉ s.data) : normSep s = s := by
  unfold normSep
  have hmap : s.data.map (fun c => if c = '/' then '\\' else c) = s.data := by
    conv_rhs => rw [← List.map_id s.data]
    apply List.map_congr_left
    intro c hc
    have : c ≠ '/' := fun hcc => h (hcc ▸ hc)
    simp [this]
  rw [hmap]

theorem le32v_le32 (n : Nat) (h : n < 4294967296) : le32v (le32 n) = n := by
  unfold le32 le32v
  dsimp only
  omega

theorem be32v_be32 (n : Nat) (h : n < 4294967296) : be32v (be32 n) = n := by
  unfold be32 be32v
  dsimp only
  omega

theorem be32_length (n : Nat) : (be32 n).length = 4 := by
  simp [be32]

theorem readBytes_of_prefix (a x y : List Nat) (pos : Nat) (h : a.drop pos = x ++ y) :
    readBytes a pos x.length = some x := by
  unfold readBytes
  rw [h, List.take_left]
  rw [if_pos (by
    have hlen : (a.drop pos).length = a.length - pos := by simp
    rw [h] at hlen
    simp at hlen
    omega)]

theorem drop_add (a : List Nat) (pos k : Nat) : a.drop (pos + k) = (a.drop pos).drop k := by
  rw [List.drop_drop]

/-- Total metadata-entry byte count of a file list. -/
def sumS (enc : String → Option (List Nat)) (ts : List PFile) : Nat :=
  (ts.map fun f => 13 + (encBytes enc f.name).length).sum

/-- Total stored-data byte count of a file list. -/
def sumStored (comp : List Nat → Except String (List Nat)) (compress : Bool)
    (ts : List PFile) : Nat :=
  (ts.map fun f => (storedBytes comp compress f.data).length).sum

/-- The metadata entry `handle_unpack` reads back for a packed file. -/
def toEntry (q : PackFileInfo) : FileEntry :=
  ⟨q.encrypted_name, q.relative_path, q.compressed_size, q.original_size, q.offset⟩

theorem collectFiles_spec (enc : String → Option (List Nat)) (ts : List PFile)
    (hflat : ∀ f ∈ ts, normSep f.name = f.name)
    (hrep : ∀ f ∈ ts, ∃ bs, enc f.name = some bs) :
    collectFiles enc ts = .ok (ts.map fun f =>
      ⟨f.name, f.data, shiftDown (encBytes enc f.name), f.data.length % 4294967296,
        none, 0, 0⟩) := by
  induction ts with
  | nil => rfl
  | cons f fs ih =>
      obtain ⟨bs, hbs⟩ := hrep f (by simp)
      have hebs : encBytes enc f.name = bs := by simp [encBytes, hbs]
      have henc : encrypt_name enc (normSep f.name) = .ok (shiftDown (encBytes enc f.name)) := by
        rw [hflat f (by simp), hebs]
        simp [encrypt_name, hbs]
      have ihh := ih (fun g hg => hflat g (by simp [hg])) (fun g hg => hrep g (by simp [hg]))
      simp only [collectFiles, henc, ihh, List.map_cons]

theorem processFile_packedInfo (enc : String → Option (List Nat))
    (comp : List Nat → Except String (List Nat)) (compress : Bool) (f : PFile) :
    processFile comp compress
        ⟨f.name, f.data, shiftDown (encBytes enc f.name), f.data.length % 4294967296,
          none, 0, 0⟩
      = packedInfo enc comp compress f := by
  unfold processFile packedInfo storedBytes
  dsimp only
  by_cases h1 : compress = true ∧ 0 < f.data.length % 4294967296
  · rw [if_pos h1, if_pos h1]
    cases h2 : runCompress comp (2 * (f.data.length % 4294967296)) f.data with
    | ok out =>
        dsimp only
        by_cases h3 : out.length % 4294967296 < f.data.length % 4294967296
        · rw [if_pos h3, if_pos h3]
        · rw [if_neg h3, if_neg h3]
    | error e => rfl
  · rw [if_neg h1, if_neg h1]

theorem metaEndOffset_fold (enc : String → Option (List Nat))
    (comp : List Nat → Except String (List Nat)) (compress : Bool) :
    ∀ (ts : List PFile) (cur : Nat), cur + sumS enc ts < 4294967296 →
    (ts.map (packedInfo enc comp compress)).foldl
        (fun cur fi => (cur + 1 + fi.encrypted_name.length + 4 + 4 + 4) % 4294967296) cur
      = cur + sumS enc ts := by
  intro ts
  induction ts with
  | nil =>
      intro cur hcur
      simp [sumS]
  | cons t tl ih =>
      intro cur hcur
      have hsum : sumS enc (t :: tl) = (13 + (encBytes enc t.name).length) + sumS enc tl := by
        simp [sumS]
      rw [hsum] at hcur
      simp only [List.map_cons, List.foldl_cons]
      have hen : (packedInfo enc comp compress t).encrypted_name.length
          = (encBytes enc t.name).length := by
        simp [packedInfo, shiftDown_length]
      rw [hen]
      have hstep : (cur + 1 + (encBytes enc t.name).length + 4 + 4 + 4) % 4294967296
          = cur + 13 + (encBytes enc t.name).length := by
        rw [Nat.mod_eq_of_lt (by omega)]
        omega
      rw [hstep]
      rw [ih (cur + 13 + (encBytes enc t.name).length) (by omega), hsum]
      omega

theorem metaEndOffset_packed (enc : String → Option (List Nat))
    (comp : List Nat → Except String (List Nat)) (compress : Bool) (ts : List PFile)
    (h : 4 + sumS enc ts < 4294967296) :
    metaEndOffset (ts.map (packedInfo enc comp compress)) = 4 + sumS enc ts :=
  metaEndOffset_fold enc comp compress ts 4 h

/-- Per-file conditions under which one file round-trips: its name is
accepted by the encoder, fits the one-byte length field, decodes back, its
bytes are genuine, it is smaller than 2 GiB, and its stored bytes are either
the raw data or a strictly smaller codec output that decompresses back. -/
def FileOK (enc : String → Option (List Nat)) (dec : List Nat → Option String)
    (comp decomp : List Nat → Except String (List Nat)) (compress : Bool)
    (f : PFile) : Prop :=
  (∃ bs, enc f.name = some bs) ∧ (encBytes enc f.name).length ≤ 255
  ∧ dec (encBytes enc f.name) = some f.name ∧ (∀ b ∈ encBytes enc f.name, b < 256)
  ∧ 2 * f.data.length < 4294967296
  ∧ (storedBytes comp compress f.data = f.data
      ∨ (comp f.data = .ok (storedBytes comp compress f.data)
          ∧ (storedBytes comp compress f.data).length < f.data.length
          ∧ decomp (storedBytes comp compress f.data) = .ok f.data))

theorem packedInfo_cs (enc : String → Option (List Nat))
    (comp : List Nat → Except String (List Nat)) (compress : Bool) (f : PFile)
    (hsmall : 2 * f.data.length < 4294967296) :
    (packedInfo enc comp compress f).compressed_size
      = (storedBytes comp compress f.data).length := by
  have hle := storedBytes_length_le comp compress f.data hsmall
  simp only [packedInfo]
  exact Nat.mod_eq_of_lt (by omega)

theorem packedInfo_os (enc : String → Option (List Nat))
    (comp : List Nat → Except String (List Nat)) (compress : Bool) (f : PFile)
    (hsmall : 2 * f.data.length < 4294967296) :
    (packedInfo enc comp compress f).original_size = f.data.length := by
  simp only [packedInfo]
  exact Nat.mod_eq_of_lt (by omega)

theorem drop4_be32 (x : Nat) (l : List Nat) : (be32 x ++ l).drop 4 = l := by
  rw [show (4 : Nat) = (be32 x).length from (be32_length x).symm, List.drop_left]

/-- The metadata loop of `handle_unpack`, run over the serialized metadata
of a packed file list, recovers exactly the expected entries. -/
theorem parse_serialized (enc : String → Option (List Nat))
    (dec : List Nat → Option String) (comp decomp : List Nat → Except String (List Nat))
    (compress : Bool) (a : List Nat) (m : Nat) :
    ∀ (ts : List PFile) (fuel pos cur : Nat) (tail : List Nat),
      (∀ f ∈ ts, FileOK enc dec comp decomp compress f) →
      ts.length ≤ fuel →
      pos + sumS enc ts = m + 4 →
      cur + sumStored comp compress ts < 4294967296 →
      a.drop pos = ((assignOffsets cur (ts.map (packedInfo enc comp compress))).map
          entryMetaBytes).flatten ++ tail →
      parseEntriesFuel dec a m fuel pos
        = .ok ((assignOffsets cur (ts.map (packedInfo enc comp compress))).map toEntry) := by
  intro ts
  induction ts with
  | nil =>
      intro fuel pos cur tail _ _ hpos _ _
      have hge : ¬ pos < m := by
        simp [sumS] at hpos
        omega
      cases fuel with
      | zero =>
          unfold parseEntriesFuel
          rw [if_neg hge]
          rfl
      | succ n =>
          unfold parseEntriesFuel
          rw [if_neg hge]
          rfl
  | cons t tl ih =>
      intro fuel pos cur tail hwf hfuel hpos hcur hdrop
      obtain ⟨⟨bs0, hbs0⟩, hle255, hdec, hlt256, hsmall2, _⟩ := hwf t (by simp)
      cases fuel with
      | zero => simp at hfuel
      | succ fl =>
      have henlen : (shiftDown (encBytes enc t.name)).length
          = (encBytes enc t.name).length := shiftDown_length _
      have hsumcons : sumS enc (t :: tl)
          = 13 + (encBytes enc t.name).length + sumS enc tl := by
        simp [sumS]
      have hstcons : sumStored comp compress (t :: tl)
          = (storedBytes comp compress t.data).length + sumStored comp compress tl := by
        simp [sumStored]
      have hsl_le := storedBytes_length_le comp compress t.data hsmall2
      have hcs := packedInfo_cs enc comp compress t hsmall2
      have hos := packedInfo_os enc comp compress t hsmall2
      have hassign : assignOffsets cur ((t :: tl).map (packedInfo enc comp compress))
          = { packedInfo enc comp compress t with offset := cur }
            :: assignOffsets (cur + (storedBytes comp compress t.data).length)
                (tl.map (packedInfo enc comp compress)) := by
        simp only [List.map_cons, assignOffsets, hcs]
        rw [Nat.mod_eq_of_lt (by rw [hstcons] at hcur; omega)]
      have hmetaq : entryMetaBytes { packedInfo enc comp compress t with offset := cur }
          = [(encBytes enc t.name).length % 256]
            ++ (shiftDown (encBytes enc t.name)
            ++ (be32 (storedBytes comp compress t.data).length
            ++ (be32 t.data.length ++ be32 cur))) := by
        unfold entryMetaBytes
        dsimp only [packedInfo]
        rw [henlen,
          Nat.mod_eq_of_lt (show (storedBytes comp compress t.data).length < 4294967296
            by omega),
          Nat.mod_eq_of_lt (show t.data.length < 4294967296 by omega)]
        simp [List.append_assoc]
      have hdrop2 : a.drop pos
          = [(encBytes enc t.name).length % 256]
            ++ (shiftDown (encBytes enc t.name)
            ++ (be32 (storedBytes comp compress t.data).length
            ++ (be32 t.data.length
            ++ (be32 cur
            ++ (((assignOffsets (cur + (storedBytes comp compress t.data).length)
                  (tl.map (packedInfo enc comp compress))).map entryMetaBytes).flatten
              ++ tail))))) := by
        rw [hdrop, hassign]
        simp only [List.map_cons, List.flatten_cons, hmetaq]
        simp [List.append_assoc]
      have hfix : (encBytes enc t.name).length % 256 = (encBytes enc t.name).length :=
        Nat.mod_eq_of_lt (by omega)
      have r1 : readBytes a pos 1 = some [(encBytes enc t.name).length % 256] := by
        have := readBytes_of_prefix a [(encBytes enc t.name).length % 256] _ pos hdrop2
        simpa using this
      have d1 : a.drop (pos + 1)
          = shiftDown (encBytes enc t.name)
            ++ (be32 (storedBytes comp compress t.data).length
            ++ (be32 t.data.length
            ++ (be32 cur
            ++ (((assignOffsets (cur + (storedBytes comp compress t.data).length)
                  (tl.map (packedInfo enc comp compress))).map entryMetaBytes).flatten
              ++ tail)))) := by
        rw [drop_add, hdrop2]
        rfl
      have r2 : readBytes a (pos + 1) (encBytes enc t.name).length
          = some (shiftDown (encBytes enc t.name)) := by
        have := readBytes_of_prefix a (shiftDown (encBytes enc t.name)) _ (pos + 1) d1
        rwa [henlen] at this
      have d2 : a.drop (pos + 1 + (encBytes enc t.name).length)
          = be32 (storedBytes comp compress t.data).length
            ++ (be32 t.data.length
            ++ (be32 cur
            ++ (((assignOffsets (cur + (storedBytes comp compress t.data).length)
                  (tl.map (packedInfo enc comp compress))).map entryMetaBytes).flatten
              ++ tail))) := by
        rw [drop_add, d1, ← henlen, List.drop_left]
      have r3 : readBytes a (pos + 1 + (encBytes enc t.name).length) 4
          = some (be32 (storedBytes comp compress t.data).length) := by
        have := readBytes_of_prefix a (be32 (storedBytes comp compress t.data).length) _ _ d2
        rwa [be32_length] at this
      have d3 : a.drop (pos + 1 + (encBytes enc t.name).length + 4)
          = be32 t.data.length
            ++ (be32 cur
            ++ (((assignOffsets (cur + (storedBytes comp compress t.data).length)
                  (tl.map (packedInfo enc comp compress))).map entryMetaBytes).flatten
              ++ tail)) := by
        rw [drop_add, d2, drop4_be32]
      have r4 : readBytes a (pos + 1 + (encBytes enc t.name).length + 4) 4
          = some (be32 t.data.length) := by
        have := readBytes_of_prefix a (be32 t.data.length) _ _ d3
        rwa [be32_length] at this
      have d4 : a.drop (pos + 1 + (encBytes enc t.name).length + 8)
          = be32 cur
            ++ (((assignOffsets (cur + (storedBytes comp compress t.data).length)
                  (tl.map (packedInfo enc comp compress))).map entryMetaBytes).flatten
              ++ tail) := by
        have heq : pos + 1 + (encBytes enc t.name).length + 8
            = pos + 1 + (encBytes enc t.name).length + 4 + 4 := by omega
        rw [heq, drop_add, d3, drop4_be32]
      have r5 : readBytes a (pos + 1 + (encBytes enc t.name).length + 8) 4
          = some (be32 cur) := by
        have := readBytes_of_prefix a (be32 cur) _ _ d4
        rwa [be32_length] at this
      have d5 : a.drop (pos + 1 + (encBytes enc t.name).length + 12)
          = ((assignOffsets (cur + (storedBytes comp compress t.data).length)
                (tl.map (packedInfo enc comp compress))).map entryMetaBytes).flatten
            ++ tail := by
        have heq : pos + 1 + (encBytes enc t.name).length + 12
            = pos + 1 + (encBytes enc t.name).length + 8 + 4 := by omega
        rw [heq, drop_add, d4, drop4_be32]
      have hdecname : decrypt_name dec (shiftDown (encBytes enc t.name)) = .ok t.name := by
        unfold decrypt_name
        rw [shiftUp_shiftDown _ hlt256, hdec]
      have hrec := ih fl (pos + 1 + (encBytes enc t.name).length + 12)
        (cur + (storedBytes comp compress t.data).length) tail
        (fun g hg => hwf g (by simp [hg]))
        (by simpa using hfuel)
        (by rw [hsumcons] at hpos; omega)
        (by rw [hstcons] at hcur; omega)
        d5
      unfold parseEntriesFuel
      rw [if_pos (by rw [hsumcons] at hpos; omega)]
      simp only [r1, List.headD_cons, hfix, r2, r3, r4, r5, hdecname, hrec]
      rw [hassign]
      simp only [List.map_cons]
      have htq : toEntry { packedInfo enc comp compress t with offset := cur }
          = ⟨shiftDown (encBytes enc t.name), t.name,
              (storedBytes comp compress t.data).length, t.data.length, cur⟩ := by
        simp [toEntry, hcs, hos, packedInfo]
        omega
      rw [htq,
        be32v_be32 _ (show (storedBytes comp compress t.data).length < 4294967296 by omega),
        be32v_be32 _ (show t.data.length < 4294967296 by omega),
        be32v_be32 _ (show cur < 4294967296 by rw [hstcons] at hcur; omega)]

theorem mapM_cons_ok {α β : Type} (f : α → Except ArcError β) (x : α) (l : List α)
    (r : β) (rs : List β) (hx : f x = .ok r) (hl : l.mapM f = .ok rs) :
    (x :: l).mapM f = .ok (r :: rs) := by
  rw [List.mapM_cons, hx]
  show (List.cons r <$> l.mapM f) = _
  rw [hl]
  rfl

/-- The extraction pass of `handle_unpack`, run over the entries and data
block written by `handle_pack`, recovers every file's name and content. -/
theorem extract_serialized (enc : String → Option (List Nat))
    (dec : List Nat → Option String) (comp decomp : List Nat → Except String (List Nat))
    (compress : Bool) (a : List Nat) :
    ∀ (ts : List PFile) (cur : Nat),
      (∀ f ∈ ts, FileOK enc dec comp decomp compress f) →
      cur + sumStored comp compress ts < 4294967296 →
      a.drop cur = (ts.map fun f => storedBytes comp compress f.data).flatten →
      ((assignOffsets cur (ts.map (packedInfo enc comp compress))).map toEntry).mapM
          (extractEntry decomp a)
        = .ok (ts.map fun f => (f.name, f.data)) := by
  intro ts
  induction ts with
  | nil =>
      intro cur _ _ _
      rfl
  | cons t tl ih =>
      intro cur hwf hcur hdrop
      obtain ⟨⟨bs0, hbs0⟩, hle255, hdec, hlt256, hsmall2, hstored⟩ := hwf t (by simp)
      have hstcons : sumStored comp compress (t :: tl)
          = (storedBytes comp compress t.data).length + sumStored comp compress tl := by
        simp [sumStored]
      have hsl_le := storedBytes_length_le comp compress t.data hsmall2
      have hcs := packedInfo_cs enc comp compress t hsmall2
      have hos := packedInfo_os enc comp compress t hsmall2
      have hassign : assignOffsets cur ((t :: tl).map (packedInfo enc comp compress))
          = { packedInfo enc comp compress t with offset := cur }
            :: assignOffsets (cur + (storedBytes comp compress t.data).length)
                (tl.map (packedInfo enc comp compress)) := by
        simp only [List.map_cons, assignOffsets, hcs]
        rw [Nat.mod_eq_of_lt (by rw [hstcons] at hcur; omega)]
      have htq : toEntry { packedInfo enc comp compress t with offset := cur }
          = ⟨shiftDown (encBytes enc t.name), t.name,
              (storedBytes comp compress t.data).length, t.data.length, cur⟩ := by
        simp [toEntry, hcs, hos, packedInfo]
        omega
      have hdropc : a.drop cur
          = storedBytes comp compress t.data
            ++ (tl.map fun f => storedBytes comp compress f.data).flatten := by
        rw [hdrop]
        simp [List.map_cons, List.flatten_cons]
      have hread : readBytes a cur (storedBytes comp compress t.data).length
          = some (storedBytes comp compress t.data) :=
        readBytes_of_prefix a _ _ cur hdropc
      have hdropn : a.drop (cur + (storedBytes comp compress t.data).length)
          = (tl.map fun f => storedBytes comp compress f.data).flatten := by
        rw [drop_add, hdropc, List.drop_left]
      have hx : extractEntry decomp a
          (⟨shiftDown (encBytes enc t.name), t.name,
            (storedBytes comp compress t.data).length, t.data.length, cur⟩ : FileEntry)
          = .ok (t.name, t.data) := by
        unfold extractEntry
        dsimp only
        rw [hread]
        dsimp only
        rcases hstored with hraw | ⟨hcomp, hlt, hdecomp⟩
        · rw [if_neg (by rw [hraw]; simp)]
          rw [hraw]
        · rw [if_pos (by omega)]
          rw [hdecomp]
          dsimp only
          rw [if_pos (show t.data.length ≤ 4 * t.data.length by omega)]
      have hrec := ih (cur + (storedBytes comp compress t.data).length)
        (fun g hg => hwf g (by simp [hg]))
        (by rw [hstcons] at hcur; omega)
        hdropn
      rw [hassign]
      simp only [List.map_cons, htq]
      exact mapM_cons_ok _ _ _ _ _ hx hrec

/-- The data-writing pass of `handle_pack` appends each file's stored bytes
in entry order (the seek branch is never taken: positions always agree with
the assigned offsets). -/
theorem writeDataBlocks_packed (enc : String → Option (List Nat))
    (comp : List Nat → Except String (List Nat)) (compress : Bool) :
    ∀ (ts : List PFile) (buf : List Nat),
      (∀ f ∈ ts, 2 * f.data.length < 4294967296) →
      buf.length + sumStored comp compress ts < 4294967296 →
      writeDataBlocks buf buf.length
          (assignOffsets buf.length (ts.map (packedInfo enc comp compress)))
        = .ok (buf ++ (ts.map fun f => storedBytes comp compress f.data).flatten) := by
  intro ts
  induction ts with
  | nil =>
      intro buf _ _
      simp [assignOffsets, writeDataBlocks]
  | cons t tl ih =>
      intro buf hsm hcur
      have hsmall2 := hsm t (by simp)
      have hstcons : sumStored comp compress (t :: tl)
          = (storedBytes comp compress t.data).length + sumStored comp compress tl := by
        simp [sumStored]
      have hsl_le := storedBytes_length_le comp compress t.data hsmall2
      have hcs := packedInfo_cs enc comp compress t hsmall2
      have hassign : assignOffsets buf.length ((t :: tl).map (packedInfo enc comp compress))
          = { packedInfo enc comp compress t with offset := buf.length }
            :: assignOffsets (buf.length + (storedBytes comp compress t.data).length)
                (tl.map (packedInfo enc comp compress)) := by
        simp only [List.map_cons, assignOffsets, hcs]
        rw [Nat.mod_eq_of_lt (by rw [hstcons] at hcur; omega)]
      rw [hassign]
      unfold writeDataBlocks
      rw [show ({ packedInfo enc comp compress t with offset := buf.length }
          : PackFileInfo).compressed_data = some (storedBytes comp compress t.data) from rfl]
      rw [if_pos rfl]
      dsimp only
      rw [writeAt_append]
      have hlen2 : buf.length + (storedBytes comp compress t.data).length
          = (buf ++ storedBytes comp compress t.data).length := by
        simp
      rw [hlen2]
      rw [ih (buf ++ storedBytes comp compress t.data)
        (fun g hg => hsm g (by simp [hg]))
        (by rw [← hlen2]; rw [hstcons] at hcur; omega)]
      simp [List.append_assoc]

theorem drop4_le32 (x : Nat) (l : List Nat) : (le32 x ++ l).drop 4 = l := by
  rw [show (4 : Nat) = (le32 x).length from (le32_length x).symm, List.drop_left]

theorem sumS_ge_len (enc : String → Option (List Nat)) :
    ∀ ts : List PFile, ts.length ≤ sumS enc ts := by
  intro ts
  induction ts with
  | nil => simp [sumS]
  | cons t tl ih =>
      have : sumS enc (t :: tl) = 13 + (encBytes enc t.name).length + sumS enc tl := by
        simp [sumS]
      rw [this]
      simp only [List.length_cons]
      omega

theorem metaFlatten_length (enc : String → Option (List Nat))
    (comp : List Nat → Except String (List Nat)) (compress : Bool) :
    ∀ (ts : List PFile) (cur : Nat),
      (((assignOffsets cur (ts.map (packedInfo enc comp compress))).map
          entryMetaBytes).flatten).length = sumS enc ts := by
  intro ts
  induction ts with
  | nil =>
      intro cur
      simp [assignOffsets, sumS]
  | cons t tl ih =>
      intro cur
      simp only [List.map_cons, assignOffsets, List.flatten_cons, List.length_append]
      rw [ih]
      have hlen : (entryMetaBytes { packedInfo enc comp compress t with
          offset := cur } : List Nat).length = 13 + (encBytes enc t.name).length := by
        rw [entryMetaBytes_length]
        show 13 + (packedInfo enc comp compress t).encrypted_name.length = _
        simp [packedInfo, shiftDown_length]
      rw [hlen]
      simp [sumS]

theorem sub32_sub4 (s : Nat) (h : 4 + s < 4294967296) : sub32 (4 + s) 4 = s := by
  unfold sub32
  omega

theorem sums_le_total (enc : String → Option (List Nat))
    (comp : List Nat → Except String (List Nat)) (compress : Bool) :
    ∀ ts : List PFile, (∀ f ∈ ts, 2 * f.data.length < 4294967296) →
      sumS enc ts + sumStored comp compress ts
        ≤ (ts.map fun f => 13 + (encBytes enc f.name).length + f.data.length).sum := by
  intro ts
  induction ts with
  | nil => simp [sumS, sumStored]
  | cons t tl ih =>
      intro hsm
      have h1 : sumS enc (t :: tl) = 13 + (encBytes enc t.name).length + sumS enc tl := by
        simp [sumS]
      have h2 : sumStored comp compress (t :: tl)
          = (storedBytes comp compress t.data).length + sumStored comp compress tl := by
        simp [sumStored]
      have h3 := storedBytes_length_le comp compress t.data (hsm t (by simp))
      have h4 := ih (fun g hg => hsm g (by simp [hg]))
      rw [h1, h2]
      simp only [List.map_cons, List.sum_cons]
      omega

/-- C2 (amended): for a directory tree of flat (separator-free) relative
names — each representable in the charset with an encoded form of at most
255 bytes — whose files are each under 2 GiB with total archive size under
4 GiB, and for black-box codecs satisfying their interface laws (charset
decode inverts encode on byte output; LZSS decompression inverts
compression), packing and then unpacking reproduces exactly the original
name-to-content map, with compression both enabled and disabled. -/
theorem pack_unpack_roundtrip (enc : String → Option (List Nat))
    (dec : List Nat → Option String) (comp decomp : List Nat → Except String (List Nat))
    (compress : Bool) (tree : List PFile)
    (hround : ∀ s bs, enc s = some bs → dec bs = some s)
    (hbytes : ∀ s bs, enc s = some bs → ∀ b ∈ bs, b < 256)
    (hcodec : ∀ d c, comp d = .ok c → decomp c = .ok d)
    (hflat : ∀ f ∈ tree, ('/' : Char) ∉ f.name.data)
    (hrep : ∀ f ∈ tree, ∃ bs, enc f.name = some bs ∧ bs.length ≤ 255)
    (hsmall : ∀ f ∈ tree, 2 * f.data.length < 4294967296)
    (htotal : 4 + (tree.map fun f => 13 + (encBytes enc f.name).length + f.data.length).sum
        < 4294967296) :
    ∃ a, handle_pack enc comp tree compress = .ok a
      ∧ handle_unpack dec decomp a = .ok (tree.map fun f => (f.name, f.data)) := by
  have hbound : 4 + sumS enc tree + sumStored comp compress tree < 4294967296 := by
    have := sums_le_total enc comp compress tree hsmall
    omega
  have hfok : ∀ f ∈ tree, FileOK enc dec comp decomp compress f := by
    intro f hf
    obtain ⟨bs, hbs, hbslen⟩ := hrep f hf
    have hebs : encBytes enc f.name = bs := by simp [encBytes, hbs]
    refine ⟨⟨bs, hbs⟩, by rw [hebs]; exact hbslen, by rw [hebs]; exact hround _ _ hbs,
      by rw [hebs]; exact hbytes _ _ hbs, hsmall f hf, ?_⟩
    rcases storedBytes_cases comp compress f.data with hraw | ⟨hcomp, hlt⟩
    · exact Or.inl hraw
    · right
      have hs2 := hsmall f hf
      have hle := storedBytes_length_le comp compress f.data hs2
      have hlt2 : (storedBytes comp compress f.data).length < f.data.length := by
        rw [Nat.mod_eq_of_lt (by omega), Nat.mod_eq_of_lt (by omega)] at hlt
        exact hlt
      exact ⟨hcomp, hlt2, hcodec _ _ hcomp⟩
  by_cases hemp : tree = []
  · subst hemp
    exact ⟨le32 4, rfl, rfl⟩
  have hcol := collectFiles_spec enc tree
    (fun f hf => normSep_eq_of_flat f.name (hflat f hf))
    (fun f hf => (hrep f hf).imp fun bs h => h.1)
  have hmap : (tree.map fun f => (⟨f.name, f.data, shiftDown (encBytes enc f.name),
        f.data.length % 4294967296, none, 0, 0⟩ : PackFileInfo)).map
        (processFile comp compress)
      = tree.map (packedInfo enc comp compress) := by
    rw [List.map_map]
    apply List.map_congr_left
    intro f _
    exact processFile_packedInfo enc comp compress f
  have hmeta := metaEndOffset_packed enc comp compress tree (by omega)
  have hflatlen := metaFlatten_length enc comp compress tree (4 + sumS enc tree)
  have hbuf0 : (le32 (sub32 (4 + sumS enc tree) 4)
      ++ ((assignOffsets (4 + sumS enc tree)
            (tree.map (packedInfo enc comp compress))).map entryMetaBytes).flatten).length
      = 4 + sumS enc tree := by
    rw [List.length_append, le32_length, hflatlen]
  have hpack : handle_pack enc comp tree compress
      = .ok ((le32 (sub32 (4 + sumS enc tree) 4)
          ++ ((assignOffsets (4 + sumS enc tree)
                (tree.map (packedInfo enc comp compress))).map entryMetaBytes).flatten)
        ++ (tree.map fun f => storedBytes comp compress f.data).flatten) := by
    simp only [handle_pack, hcol]
    rw [if_neg (by simp [List.isEmpty_iff, hemp])]
    simp only [hmap, hmeta]
    have hw := writeDataBlocks_packed enc comp compress tree
      (le32 (sub32 (4 + sumS enc tree) 4)
        ++ ((assignOffsets (4 + sumS enc tree)
              (tree.map (packedInfo enc comp compress))).map entryMetaBytes).flatten)
      hsmall (by rw [hbuf0]; omega)
    rw [hbuf0] at hw
    rw [hbuf0]
    exact hw
  rw [sub32_sub4 _ (by omega)] at hpack hbuf0
  set A := (le32 (sumS enc tree)
      ++ ((assignOffsets (4 + sumS enc tree)
            (tree.map (packedInfo enc comp compress))).map entryMetaBytes).flatten)
    ++ (tree.map fun f => storedBytes comp compress f.data).flatten with hA
  refine ⟨A, hpack, ?_⟩
  have hAassoc : A = le32 (sumS enc tree)
      ++ (((assignOffsets (4 + sumS enc tree)
            (tree.map (packedInfo enc comp compress))).map entryMetaBytes).flatten
        ++ (tree.map fun f => storedBytes comp compress f.data).flatten) := by
    rw [hA, List.append_assoc]
  have hheader : readHeader A = .ok (sumS enc tree) := by
    have hpre : A.drop 0 = le32 (sumS enc tree)
        ++ (((assignOffsets (4 + sumS enc tree)
              (tree.map (packedInfo enc comp compress))).map entryMetaBytes).flatten
          ++ (tree.map fun f => storedBytes comp compress f.data).flatten) := by
      rw [List.drop_zero, hAassoc]
    have hr := readBytes_of_prefix A _ _ 0 hpre
    rw [le32_length] at hr
    unfold readHeader
    rw [hr]
    dsimp only
    rw [le32v_le32 _ (by omega)]
  have hdrop4 : A.drop 4
      = ((assignOffsets (4 + sumS enc tree)
            (tree.map (packedInfo enc comp compress))).map entryMetaBytes).flatten
        ++ (tree.map fun f => storedBytes comp compress f.data).flatten := by
    rw [hAassoc, drop4_le32]
  have hparse := parse_serialized enc dec comp decomp compress A (sumS enc tree)
    tree (sumS enc tree) 4 (4 + sumS enc tree)
    ((tree.map fun f => storedBytes comp compress f.data).flatten)
    hfok (sumS_ge_len enc tree) (by omega) (by omega) hdrop4
  have hdropD : A.drop (4 + sumS enc tree)
      = (tree.map fun f => storedBytes comp compress f.data).flatten := by
    have hdl := List.drop_left
      (le32 (sumS enc tree)
        ++ ((assignOffsets (4 + sumS enc tree)
              (tree.map (packedInfo enc comp compress))).map entryMetaBytes).flatten)
      ((tree.map fun f => storedBytes comp compress f.data).flatten)
    rw [hbuf0] at hdl
    rw [hA]
    exact hdl
  have hextract := extract_serialized enc dec comp decomp compress A
    tree (4 + sumS enc tree) hfok (by omega) hdropD
  unfold handle_unpack parseMetadata
  rw [hheader]
  simp only [hparse]
  exact hextract

/-- Witness for C2 (amended): the flat two-file tree
`{"a" ↦ [5, 6], "b" ↦ []}`, with compression enabled under an identity
codec, packs and unpacks back to itself. -/
theorem pack_unpack_roundtrip_witness :
    ∃ a, handle_pack asciiEnc (fun d => .ok d) [⟨"a", [5, 6]⟩, ⟨"b", []⟩] true = .ok a
      ∧ handle_unpack asciiDec (fun c => .ok c) a
        = .ok [("a", [5, 6]), ("b", [])] :=
  pack_unpack_roundtrip asciiEnc asciiDec (fun d => .ok d) (fun c => .ok c) true
    [⟨"a", [5, 6]⟩, ⟨"b", []⟩]
    asciiDec_asciiEnc asciiEnc_bytes
    (fun d c h => by injection h with h2; rw [h2])
    (by decide) (by decide) (by decide) (by decide)

end Silky
